import Mathlib

/-!
Shallow embedding of the depletion-chain module `openmc/deplete/chain.py`
of the ornlneutronimaging/openmc repository, together with proofs about
the behaviour of its operations.

Python floats are embedded as exact rationals, Python ints as `Int`/`Nat`,
fallible code returns `Option`/`Except`, and the in-place mutation of
`Chain.set_branch_ratios` is embedded by explicit state passing so that
the chain state at the point an exception is raised is observable.
-/

namespace Deplete

/-- Modelled from the spec: GND nuclide names have the form
"Symbol+MassNumber[_metastable-suffix]" (for example `Am241`, `Am242_m1`) and
`openmc.data.zam` decomposes such a name into (atomic number Z, mass number A,
metastable state).  We represent a name directly by that decomposition; `Z`
and `A` are `Int` because the search loop of `replace_missing` manipulates
them as Python integers, where they can leave the physical range. -/
structure NucName where
  Z : Int
  A : Int
  m : Nat
deriving DecidableEq

/-- Modelled from the spec: `openmc.data.ATOMIC_SYMBOL` maps the atomic
numbers 0 (the neutron) through 118 to element symbols; looking up any other
key raises `KeyError`.  Only the domain of the table matters here. -/
def validZ (z : Int) : Bool := 0 ≤ z && z ≤ 118

/-- One decay mode of a decay record: elementary mode labels, daughter name
and source branching ratio (`mode.modes`, `mode.daughter`,
`mode.branching_ratio.nominal_value` in the source). -/
structure DecayMode where
  modes : List String
  daughter : NucName
  br : ℚ
deriving DecidableEq

/-- The part of an `openmc.data.Decay` record that `chain.py` reads:
`data.nuclide[stable]`, `data.half_life.nominal_value`, the values of
`data.average_energies` and `data.modes`. -/
structure DecayData where
  stable : Bool
  half_life : ℚ
  average_energies : List ℚ
  modes : List DecayMode
deriving DecidableEq

/-- First-match association lookup, the embedding of a Python dict read. -/
def alookup {α β : Type _} [DecidableEq α] : List (α × β) → α → Option β
  | [], _ => none
  | (k, v) :: rest, a => if k = a then some v else alookup rest a

/-- Python dict write `d[k] = v`: replace in place if the key is present
(keeping its position, as Python dicts keep first-insertion order),
append otherwise. -/
def dinsert {α β : Type _} [DecidableEq α] (k : α) (v : β) : List (α × β) → List (α × β)
  | [] => [(k, v)]
  | (k', v') :: rest => if k' = k then (k, v) :: rest else (k', v') :: dinsert k v rest

/-- Membership test `product in decay_data` on the keys of the decay-data
dictionary. -/
def containsName (dd : List (NucName × DecayData)) (n : NucName) : Bool :=
  dd.any (fun p => p.1 = n)

/-- The scan of `replace_missing` (source lines 76-86): walk the decay-data
entries in order, considering those of the element `z` (the regex
`symbol(\d+)(_m\d+)?` matched against the key), stop at the first stable
isotope, otherwise keep the mass of the largest half-life seen so far.
Returns `mass_longest_lived`; `none` embeds the Python `UnboundLocalError`
raised later when no entry of the element matched. -/
def massLongestLived (z : Int) : List (NucName × DecayData) → ℚ → Option Int → Option Int
  | [], _, acc => acc
  | (n, d) :: rest, hl, acc =>
    if n.Z = z then
      if d.stable then some n.A
      else if hl < d.half_life then massLongestLived z rest d.half_life (some n.A)
      else massLongestLived z rest hl acc
    else massLongestLived z rest hl acc

/-- One step of the candidate update inside the search loop of
`replace_missing` (source lines 95-101): for Z above 98 step by alpha decay
(Z-2, A-4), otherwise by beta- (Z+1) or beta+ (Z-1) at fixed A. -/
def stepZA (beta_minus : Bool) (z a : Int) : Int × Int :=
  if 98 < z then (z - 2, a - 4)
  else if beta_minus then (z + 1, a) else (z - 1, a)

/-- The `while product not in decay_data` loop of `replace_missing`
(source lines 93-102), with explicit fuel; the candidate name is re-formed
as a ground state each step.  `none` embeds either exhaustion of the fuel
(the Python loop not having exited within `fuel` steps) or the `KeyError`
from `ATOMIC_SYMBOL[Z]` at an out-of-range Z. -/
def replaceLoop (dd : List (NucName × DecayData)) (beta_minus : Bool) :
    Nat → Int → Int → NucName → Option NucName
  | 0, _, _, _ => none
  | fuel + 1, z, a, product =>
    if containsName dd product then some product
    else
      let za := stepZA beta_minus z a
      if validZ za.1 then
        replaceLoop dd beta_minus fuel za.1 za.2 ⟨za.1, za.2, 0⟩
      else none

/-- Embedding of `replace_missing` (source lines 47-104): replace a product
that has no decay data with a suitable substitute.  The neutron becomes the
proton; a metastable state first tries its ground state; otherwise search in
the direction decided by comparing the mass of the longest-lived isotope of
the element with the mass of the missing product. -/
def replace_missing (fuel : Nat) (product : NucName) (dd : List (NucName × DecayData)) :
    Option NucName :=
  if ¬ validZ product.Z then none
  else if product.Z = 0 ∧ product.A = 1 then some ⟨1, 1, 0⟩
  else
    let product1 : NucName := if product.m ≠ 0 then ⟨product.Z, product.A, 0⟩ else product
    match massLongestLived product.Z dd 0 none with
    | none => none
    | some mass => replaceLoop dd (decide (mass < product.A)) fuel product.Z product.A product1

/-- Target of a reaction transition: a nuclide name, the string sentinel
used for total loss, or the integer 0 that `from_endf` stores as the target
of a fission transition. -/
inductive RxTarget where
  | name (n : NucName)
  | nothing
  | fissionSentinel
deriving DecidableEq

/-- `DecayTuple(type, target, branching_ratio)` of `openmc.deplete.nuclide`;
a `none` target embeds the string sentinel for total loss. -/
structure DecayTuple where
  type_ : String
  target : Option NucName
  br : ℚ
deriving DecidableEq

/-- `ReactionTuple(type, target, Q, branching_ratio)` of
`openmc.deplete.nuclide`. -/
structure ReactionTuple where
  type_ : String
  target : RxTarget
  Q : ℚ
  br : ℚ
deriving DecidableEq

/-- `openmc.deplete.Nuclide`, restricted to the attributes `chain.py`
reads and writes. -/
structure Nuclide where
  name : NucName
  half_life : Option ℚ
  decay_energy : ℚ
  decay_modes : List DecayTuple
  reactions : List ReactionTuple
  yield_energies : List ℚ
  yield_data : List (ℚ × List (NucName × ℚ))
deriving DecidableEq

/-- `openmc.deplete.Chain`: insertion-ordered nuclides, the observed
reaction labels, and the name-to-position dictionary. -/
structure Chain where
  nuclides : List Nuclide
  reactions : List String
  nuclide_dict : List (NucName × Nat)
deriving DecidableEq

/-- `self[name]`, that is `self.nuclides[self.nuclide_dict[name]]`; `none`
embeds the KeyError or IndexError of a failing lookup. -/
def Chain.find? (c : Chain) (n : NucName) : Option Nuclide :=
  match alookup c.nuclide_dict n with
  | none => none
  | some ix => c.nuclides.get? ix

/-- `','.join(mode.modes)`: the comma-joined decay-mode label. -/
def joinModes (l : List String) : String := String.intercalate "," l

/-- Source lines 222-239 of `Chain.from_endf`: the loop over
`enumerate(data.modes)` producing the decay tuples of one nuclide.  The
target is the daughter when it has decay data and otherwise goes through
`replace_missing`; the branching ratio is the source value except that at
the final mode, when the running sum of source values is not exactly one,
it is replaced by one minus the sum of the source values of all preceding
modes. -/
def buildDecayAux (dd : List (NucName × DecayData)) (fuel : Nat) (allModes : List DecayMode) :
    Nat → ℚ → List DecayMode → Option (List DecayTuple)
  | _, _, [] => some []
  | i, sum_br, mode :: rest =>
    let target? : Option NucName :=
      if containsName dd mode.daughter then some mode.daughter
      else replace_missing fuel mode.daughter dd
    match target? with
    | none => none
    | some target =>
      let sum' : ℚ := sum_br + mode.br
      let br : ℚ :=
        if i = allModes.length - 1 ∧ sum' ≠ 1 then
          1 - (allModes.dropLast.map (fun mo => mo.br)).sum
        else mode.br
      match buildDecayAux dd fuel allModes (i + 1) sum' rest with
      | none => none
      | some ts => some (DecayTuple.mk (joinModes mode.modes) (some target) br :: ts)

/-- The decay-mode loop started as in the source: index 0, running sum 0. -/
def buildDecayTuples (dd : List (NucName × DecayData)) (fuel : Nat)
    (modes : List DecayMode) : Option (List DecayTuple) :=
  buildDecayAux dd fuel modes 0 0 modes

/-- Source lines 218-239 of `Chain.from_endf`: the decay section for one
nuclide record, guarded by the nuclide being unstable with a nonzero
half-life; stable or zero-half-life records get no decay tuples. -/
def fromEndfDecay (dd : List (NucName × DecayData)) (fuel : Nat) (rec : DecayData) :
    Option (List DecayTuple) :=
  if rec.stable = false ∧ rec.half_life ≠ 0 then buildDecayTuples dd fuel rec.modes
  else some []

/-- The IEEE-754 double value that `math.log(2)` returns, as an exact
rational: 6243314768165359 / 2^53. -/
def log2 : ℚ := 6243314768165359 / 9007199254740992

/-- The accumulating matrix of `form_matrix`, the embedding of
`defaultdict(float)` keyed by (row, column). -/
def Mat : Type := Nat × Nat → ℚ

/-- The all-zero matrix, the state of the fresh defaultdict. -/
def mzero : Mat := fun _ => 0

/-- `matrix[r, c] += v`. -/
def madd (m : Mat) (r c : Nat) (v : ℚ) : Mat :=
  fun p => if p = (r, c) then m p + v else m p

/-- The interface of the `rates` argument of `form_matrix` that the source
reads: the keys of `rates.index_nuc`, the keys of `rates.index_rx`, and the
scalar rate for a (nuclide, reaction-type) pair. -/
structure RateTable where
  index_nuc : List NucName
  index_rx : List String
  rate : NucName → String → ℚ

/-- `sorted(nuc.yield_data.items())[0]`: the yield-table entry with the
least incident energy (dictionary keys are distinct, so the sort is decided
by the energies); `none` embeds the IndexError on an empty table. -/
def minEnergyEntry : List (ℚ × List (NucName × ℚ)) → Option (ℚ × List (NucName × ℚ))
  | [] => none
  | e :: rest =>
    match minEnergyEntry rest with
    | none => some e
    | some e' => if e.1 ≤ e'.1 then some e else some e'

/-- The decay-gain loop of `form_matrix` (source lines 418-425): for each
decay mode with a target other than the total-loss sentinel, add
branching ratio times decay constant to the (target row, parent column)
entry, skipping exact zeros. -/
def decayGains (dict : List (NucName × Nat)) (i : Nat) (dc : ℚ) :
    List DecayTuple → Mat → Option Mat
  | [], m => some m
  | t :: rest, m =>
    match t.target with
    | none => decayGains dict i dc rest m
    | some tgt =>
      let branch_val := t.br * dc
      if branch_val ≠ 0 then
        match alookup dict tgt with
        | none => none
        | some k => decayGains dict i dc rest (madd m k i branch_val)
      else decayGains dict i dc rest m

/-- The decay section of `form_matrix` for one nuclide (source lines
409-425): when decay modes are present, subtract the decay constant
`log(2)/half_life` from the diagonal and add the decay gains.  A missing
half-life embeds the Python TypeError and a zero one the
ZeroDivisionError of the division. -/
def processDecay (dict : List (NucName × Nat)) (i : Nat) (nuc : Nuclide) (m : Mat) :
    Option Mat :=
  if nuc.decay_modes.length ≠ 0 then
    match nuc.half_life with
    | none => none
    | some hl =>
      if hl = 0 then none
      else
        let dc := log2 / hl
        let m1 := if dc ≠ 0 then madd m i i (-dc) else m
        decayGains dict i dc nuc.decay_modes m1
  else some m

/-- The fission-product loop of `form_matrix` (source lines 455-459): add
yield fraction times fission rate to each (product row, parent column)
entry, skipping exact zeros; a product absent from the chain dictionary
embeds the KeyError. -/
def yieldGains (dict : List (NucName × Nat)) (i : Nat) (path_rate : ℚ) :
    List (NucName × ℚ) → Mat → Option Mat
  | [], m => some m
  | (product, y) :: rest, m =>
    let yield_val := y * path_rate
    if yield_val ≠ 0 then
      match alookup dict product with
      | none => none
      | some k => yieldGains dict i path_rate rest (madd m k i yield_val)
    else yieldGains dict i path_rate rest m

/-- The gain step of the reaction loop of `form_matrix` (source lines
444-459): a total-loss target contributes nothing; a non-fission gain goes
to the (target row, parent column) entry weighted by the branching ratio,
looking up the target row (a KeyError for a missing name or for the integer
fission sentinel); a fission gain distributes the least-energy yield
table. -/
def rxGain (dict : List (NucName × Nat)) (i : Nat) (nuc : Nuclide) (ty : String)
    (tgt : RxTarget) (path_rate b : ℚ) (m1 : Mat) : Option Mat :=
  match tgt with
  | RxTarget.nothing => some m1
  | tgt =>
    if ty ≠ "fission" then
      if path_rate ≠ 0 then
        match (match tgt with
               | RxTarget.name n => alookup dict n
               | _ => none) with
        | none => none
        | some k => some (madd m1 k i (path_rate * b))
      else some m1
    else
      match minEnergyEntry nuc.yield_data with
      | none => none
      | some ed => yieldGains dict i path_rate ed.2 m1

/-- The reaction loop of `form_matrix` for one nuclide present in the rate
table (source lines 432-462).  `seen` is the `reactions` set used to count
the loss for each reaction type only once; a type absent from
`rates.index_rx` embeds the KeyError of that lookup. -/
def processRx (dict : List (NucName × Nat)) (rates : RateTable) (i : Nat) (nuc : Nuclide) :
    List ReactionTuple → List String → Mat → Option Mat
  | [], _, m => some m
  | rx :: rest, seen, m =>
    if rx.type_ ∈ rates.index_rx then
      let path_rate := rates.rate nuc.name rx.type_
      let seen1 := if rx.type_ ∈ seen then seen else rx.type_ :: seen
      let m1 : Mat :=
        if rx.type_ ∈ seen then m
        else if path_rate ≠ 0 then madd m i i (-path_rate) else m
      match rxGain dict i nuc rx.type_ rx.target path_rate rx.br m1 with
      | none => none
      | some m2 => processRx dict rates i nuc rest seen1 m2
    else none

/-- One iteration of the `enumerate(self.nuclides)` loop of `form_matrix`:
the decay section, then, when the nuclide is present in the rate table,
the reaction section with a fresh seen-set. -/
def processNuclide (dict : List (NucName × Nat)) (rates : RateTable) (i : Nat)
    (nuc : Nuclide) (m : Mat) : Option Mat :=
  match processDecay dict i nuc m with
  | none => none
  | some m1 =>
    if nuc.name ∈ rates.index_nuc then processRx dict rates i nuc nuc.reactions [] m1
    else some m1

/-- The nuclide loop of `form_matrix`, indexed from `i`. -/
def formMatrixAux (dict : List (NucName × Nat)) (rates : RateTable) :
    Nat → List Nuclide → Mat → Option Mat
  | _, [], m => some m
  | i, nuc :: rest, m =>
    match processNuclide dict rates i nuc m with
    | none => none
    | some m1 => formMatrixAux dict rates (i + 1) rest m1

/-- Embedding of `Chain.form_matrix` (source lines 390-468), up to the final
conversion of the accumulated coordinate dictionary into a compressed
sparse matrix, which preserves entry values. -/
def Chain.form_matrix (c : Chain) (rates : RateTable) : Option Mat :=
  formMatrixAux c.nuclide_dict rates 0 c.nuclides mzero

/-- Convenience names for the light co-product nuclides of the secondary
particle table. -/
def H1 : NucName := ⟨1, 1, 0⟩

/-- Deuterium, the co-product H2. -/
def H2 : NucName := ⟨1, 2, 0⟩

/-- Tritium, the co-product H3. -/
def H3 : NucName := ⟨1, 3, 0⟩

/-- Helium-3, the co-product He3. -/
def He3 : NucName := ⟨2, 3, 0⟩

/-- Helium-4, the co-product He4. -/
def He4 : NucName := ⟨2, 4, 0⟩

/-- The module-level `_SECONDARY_PARTICLES` table mapping a reaction name to
the emitted light co-products that branching-ratio edits must not touch. -/
def secondaryParticles : List (String × List NucName) := [
  ("(n,p)", [H1]), ("(n,d)", [H2]), ("(n,t)", [H3]), ("(n,3He)", [He3]),
  ("(n,a)", [He4]), ("(n,2nd)", [H2]), ("(n,na)", [He4]), ("(n,3na)", [He4]),
  ("(n,n3a)", [He4, He4, He4]), ("(n,2na)", [He4]), ("(n,np)", [H1]),
  ("(n,n2a)", [He4, He4]), ("(n,2n2a)", [He4, He4]), ("(n,nd)", [H2]),
  ("(n,nt)", [H3]), ("(n,nHe-3)", [He3]), ("(n,nd2a)", [H2, He4]),
  ("(n,nt2a)", [H3, He4, He4]), ("(n,2np)", [H1]), ("(n,3np)", [H1]),
  ("(n,n2p)", [H1, H1]), ("(n,2a)", [He4, He4]), ("(n,3a)", [He4, He4, He4]),
  ("(n,2p)", [H1, H1]), ("(n,pa)", [H1, He4]),
  ("(n,t2a)", [H3, He4, He4]), ("(n,d2a)", [H2, He4, He4]),
  ("(n,pd)", [H1, H2]), ("(n,pt)", [H1, H3]), ("(n,da)", [H2, He4])]

/-- The exception kinds that `set_branch_ratios` can raise.  `keyError` is
raised for an unknown parent or product in strict mode and by the unguarded
`grounds[parent]` lookup of the sum check in either mode; `typeError` embeds
`"_m" not in rx.target` applied to the integer fission sentinel;
`lookupFailure` is the model image of lookups that cannot fail on a
well-formed chain (an index of `nuclide_dict` out of range, and the
bookkeeping reads of the mutation phase). -/
inductive SbrError where
  | keyError (n : NucName)
  | attributeError (n : NucName)
  | valueError (n : NucName)
  | indexError
  | typeError
  | lookupFailure
deriving DecidableEq

/-- `rx.target not in secondary`, negated: membership of a reaction target
in the secondary-particle list; the sentinels compare unequal to every
name. -/
def targetInList (t : RxTarget) (l : List NucName) : Bool :=
  match t with
  | RxTarget.name n => decide (n ∈ l)
  | _ => false

/-- Python `"_m" in rx.target` on a reaction target: decided by the
metastable field for a name, false for the total-loss sentinel string, and
a TypeError (`none`) for the integer fission sentinel. -/
def targetHasM : RxTarget → Option Bool
  | RxTarget.name n => some (decide (n.m ≠ 0))
  | RxTarget.nothing => some false
  | RxTarget.fissionSentinel => none

/-- `grounds[parent] in sub`: membership of the recorded ground target among
the supplied target keys. -/
def groundMem (g : RxTarget) (sub : List (NucName × ℚ)) : Bool :=
  match g with
  | RxTarget.name n => sub.any (fun p => p.1 = n)
  | _ => false

/-- The `enumerate(self[parent].reactions)` scan of `set_branch_ratios`
(source lines 590-595): collect the positions of the transitions of the
requested reaction whose target is not a secondary particle, recording the
last such target without a metastable suffix as the ground target. -/
def scanRx (reaction : String) (secondary : List NucName) :
    Nat → List ReactionTuple → Option RxTarget → Option (List Nat × Option RxTarget)
  | _, [], g => some ([], g)
  | ix, rx :: rest, g =>
    if rx.type_ = reaction ∧ targetInList rx.target secondary = false then
      match targetHasM rx.target with
      | none => none
      | some hasM =>
        let g1 := if hasM then g else some rx.target
        match scanRx reaction secondary (ix + 1) rest g1 with
        | none => none
        | some (ixs, gOut) => some (ix :: ixs, gOut)
    else scanRx reaction secondary (ix + 1) rest g

/-- `for product in sub: if product not in self` (source lines 577-583):
the first supplied target absent from the chain, if any. -/
def checkProducts (c : Chain) : List (NucName × ℚ) → Option NucName
  | [] => none
  | (p, _) :: rest =>
    if (alookup c.nuclide_dict p).isSome then checkProducts c rest else some p

/-- The bookkeeping that the validation loop of `set_branch_ratios`
accumulates before any mutation. -/
structure ValState where
  sums : List (NucName × ℚ)
  rxn_ix_map : List (NucName × List Nat)
  grounds : List (NucName × RxTarget)
  missing_parents : List NucName
  missing_products : List (NucName × NucName)
  missing_reaction : List NucName
  bad_sums : List (NucName × ℚ)

/-- The empty bookkeeping state at the start of the validation loop. -/
def ValState.init : ValState := ⟨[], [], [], [], [], [], []⟩

/-- One iteration of the validation loop of `set_branch_ratios` (source
lines 566-619) for the listed parent `parent` with supplied ratios `sub`:
check the parent and all its targets exist, scan for transitions of the
requested reaction, and run the sum check, which reads `grounds[parent]`
unguarded once the sum is below `1 + tolerance`. -/
def validateParent (c : Chain) (reaction : String) (secondary : List NucName)
    (strict : Bool) (tol : ℚ) (st : ValState) (parent : NucName)
    (sub : List (NucName × ℚ)) : Except SbrError ValState :=
  if (alookup c.nuclide_dict parent).isSome = false then
    if strict then Except.error (SbrError.keyError parent)
    else Except.ok { st with missing_parents := st.missing_parents ++ [parent] }
  else
    match checkProducts c sub with
    | some product =>
      if strict then Except.error (SbrError.keyError product)
      else
      Except.ok { st with missing_products := dinsert parent product st.missing_products }
    | none =>
      match Chain.find? c parent with
      | none => Except.error SbrError.lookupFailure
      | some parentNuc =>
        match scanRx reaction secondary 0 parentNuc.reactions none with
        | none => Except.error SbrError.typeError
        | some (indexes, gOpt) =>
          let grounds1 := match gOpt with
                          | some g => dinsert parent g st.grounds
                          | none => st.grounds
          if indexes = [] then
            if strict then Except.error (SbrError.attributeError parent)
            else
              Except.ok { st with
                grounds := grounds1
                missing_reaction := st.missing_reaction ++ [parent] }
          else
            let this_sum := (sub.map Prod.snd).sum
            if 1 + tol ≤ this_sum then
              if strict then Except.error (SbrError.valueError parent)
              else
                Except.ok { st with
                  grounds := grounds1
                  bad_sums := dinsert parent this_sum st.bad_sums }
            else
              match alookup grounds1 parent with
              | none => Except.error (SbrError.keyError parent)
              | some g =>
                if groundMem g sub = true ∧ this_sum ≤ 1 - tol then
                  if strict then Except.error (SbrError.valueError parent)
                  else
                    Except.ok { st with
                      grounds := grounds1
                      bad_sums := dinsert parent this_sum st.bad_sums }
                else
                  Except.ok { st with
                    grounds := grounds1
                    rxn_ix_map := dinsert parent indexes st.rxn_ix_map
                    sums := dinsert parent this_sum st.sums }

/-- The validation loop of `set_branch_ratios` over all listed parents. -/
def sbrValidate (c : Chain) (reaction : String) (secondary : List NucName)
    (strict : Bool) (tol : ℚ) :
    List (NucName × List (NucName × ℚ)) → ValState → Except SbrError ValState
  | [], st => Except.ok st
  | (parent, sub) :: rest, st =>
    match validateParent c reaction secondary strict tol st parent sub with
    | Except.error e => Except.error e
    | Except.ok st1 => sbrValidate c reaction secondary strict tol rest st1

/-- `list.pop(ix)` with a valid index, `none` on an IndexError. -/
def popAt {α : Type _} (l : List α) (ix : Nat) : Option (List α) :=
  if ix < l.length then some (l.eraseIdx ix) else none

/-- `for ix in reversed(rxn_index): parent.reactions.pop(ix)`: pop a list of
indices in the order given. -/
def popAll {α : Type _} : List α → List Nat → Option (List α)
  | l, [] => some l
  | l, ix :: rest =>
    match popAt l ix with
    | none => none
    | some l1 => popAll l1 rest

/-- Replace the nuclide at position `ix` of the chain, the image of mutating
`self.nuclides[ix]` in place. -/
def Chain.updateNuclide (c : Chain) (ix : Nat) (nuc : Nuclide) : Chain :=
  { c with nuclides := c.nuclides.set ix nuc }

/-- One iteration of the mutation loop of `set_branch_ratios` (source lines
650-679): pop the validated reaction transitions of the parent, append one
transition per supplied ratio carrying the Q value of the first removed
transition, and, when every supplied target is metastable and the supplied
sum is not exactly one, append a ground-state transition with the
complementary ratio, its target being the recorded ground target when one
exists and the canonical (Z, A+1, ground) name of the capture daughter
otherwise. -/
def applyParent (c : Chain) (reaction : String)
    (branch_ratios : List (NucName × List (NucName × ℚ)))
    (sums : List (NucName × ℚ)) (grounds : List (NucName × RxTarget))
    (parent_name : NucName) (rxn_index : List Nat) : Option Chain :=
  match alookup c.nuclide_dict parent_name with
  | none => none
  | some pix =>
    match c.nuclides.get? pix with
    | none => none
    | some parent =>
      match alookup branch_ratios parent_name with
      | none => none
      | some new_ratios =>
        match rxn_index.head? with
        | none => none
        | some ix0 =>
          match parent.reactions.get? ix0 with
          | none => none
          | some rx0 =>
            match popAll parent.reactions rxn_index.reverse with
            | none => none
            | some remaining =>
              let appended := remaining ++ new_ratios.map (fun tb =>
                ReactionTuple.mk reaction (RxTarget.name tb.1) rx0.Q tb.2)
              let all_meta := new_ratios.all (fun tb => decide (tb.1.m ≠ 0))
              match alookup sums parent_name with
              | none => none
              | some s =>
                let reactions2 :=
                  if all_meta = true ∧ s ≠ 1 then
                    let ground_tgt : RxTarget :=
                      match alookup grounds parent_name with
                      | some g => g
                      | none => RxTarget.name ⟨parent_name.Z, parent_name.A + 1, 0⟩
                    appended ++ [ReactionTuple.mk reaction ground_tgt rx0.Q (1 - s)]
                  else appended
                some (c.updateNuclide pix { parent with reactions := reactions2 })

/-- The mutation loop of `set_branch_ratios` over the validated parents,
threading the chain; on a failing bookkeeping read the chain mutated so far
is returned with the error, as an in-place mutation would leave it. -/
def sbrApply (reaction : String) (branch_ratios : List (NucName × List (NucName × ℚ)))
    (sums : List (NucName × ℚ)) (grounds : List (NucName × RxTarget)) :
    Chain → List (NucName × List Nat) → Option SbrError × Chain
  | c, [] => (none, c)
  | c, (pname, ixs) :: rest =>
    match applyParent c reaction branch_ratios sums grounds pname ixs with
    | none => (some SbrError.lookupFailure, c)
    | some c1 => sbrApply reaction branch_ratios sums grounds c1 rest

/-- Embedding of `Chain.set_branch_ratios` (source lines 503-679): validate
every listed parent, raise IndexError when no parent survives validation
with the requested reaction, then rebuild the reaction transitions of the
validated parents.  The result pairs the raised exception, if any, with the
chain state at that moment. -/
def Chain.set_branch_ratios (c : Chain)
    (branch_ratios : List (NucName × List (NucName × ℚ))) (reaction : String)
    (strict : Bool) (tolerance : ℚ) : Option SbrError × Chain :=
  let tol := |tolerance|
  let secondary := (alookup secondaryParticles reaction).getD []
  match sbrValidate c reaction secondary strict tol branch_ratios ValState.init with
  | Except.error e => (some e, c)
  | Except.ok st =>
    if st.rxn_ix_map = [] then (some SbrError.indexError, c)
    else sbrApply reaction branch_ratios st.sums st.grounds c st.rxn_ix_map

/-! Small helper lemmas about the matrix accumulator. -/

theorem madd_apply (m : Mat) (r c : Nat) (v : ℚ) (p : Nat × Nat) :
    madd m r c v p = if p = (r, c) then m p + v else m p := rfl

theorem madd_ne (m : Mat) (r c : Nat) (v : ℚ) (p : Nat × Nat) (h : p ≠ (r, c)) :
    madd m r c v p = m p := by
  simp [madd, h]

theorem madd_self (m : Mat) (r c : Nat) (v : ℚ) :
    madd m r c v (r, c) = m (r, c) + v := by
  simp [madd]

/-! Fixture for the two-nuclide example scenario: nuclide `A` with half-life
ten seconds and a single decay mode of branching ratio one to `B`, and `B`
stable (no decay data populated).  The concrete identities are irrelevant;
H3 and He3 are used. -/

/-- The name of the decaying example nuclide `A`. -/
def nmA : NucName := ⟨1, 3, 0⟩

/-- The name of the stable example nuclide `B`. -/
def nmB : NucName := ⟨2, 3, 0⟩

/-- Example nuclide `A`: half-life 10 s, decays 100 percent to `B`. -/
def nuclideA : Nuclide := ⟨nmA, some 10, 0, [⟨"beta-", some nmB, 1⟩], [], [], []⟩

/-- Example nuclide `B`: stable, no decay modes. -/
def nuclideB : Nuclide := ⟨nmB, none, 0, [], [], [], []⟩

/-- The two-nuclide example chain. -/
def chainAB : Chain := ⟨[nuclideA, nuclideB], [], [(nmA, 0), (nmB, 1)]⟩

/-- An empty reaction-rate table: no nuclide rows, no reaction columns. -/
def emptyRates : RateTable := ⟨[], [], fun _ _ => 0⟩

/-- C3: on the chain of exactly two nuclides `A` (half-life 10 s, one decay
mode to `B` with branching ratio 1) and `B` (stable), `form_matrix` with an
empty rate table yields the 2 by 2 matrix with entry (0,0) equal to
minus log(2)/10, entry (1,0) equal to plus log(2)/10 and entries (0,1) and
(1,1) equal to zero, so the column of `A` sums to exactly zero. -/
theorem form_matrix_two_nuclide_example :
    (chainAB.form_matrix emptyRates).map
      (fun M => (M (0, 0), M (1, 0), M (0, 1), M (1, 1)))
      = some (-(log2 / 10), log2 / 10, 0, 0) := by
  norm_num [Chain.form_matrix, formMatrixAux, processNuclide, processDecay, decayGains,
    chainAB, nuclideA, nuclideB, nmA, nmB, emptyRates, alookup, madd, mzero, log2]
  exact ⟨by decide, by decide⟩

/-- The decay-mode loop invariant: started at position `pre.length` with the
running sum of the source ratios of `pre`, on the remaining modes `suffix`
of `allModes = pre ++ suffix`, the produced branching ratios are the source
values except at the last position, whose stored value is one minus the sum
of the source values of all earlier modes — whether or not the full source
sum equals one. -/
theorem buildDecayAux_map_br (dd : List (NucName × DecayData)) (fuel : Nat)
    (allModes : List DecayMode) :
    ∀ (suffix pre : List DecayMode) (ts : List DecayTuple),
      allModes = pre ++ suffix → suffix ≠ [] →
      buildDecayAux dd fuel allModes pre.length (pre.map DecayMode.br).sum suffix = some ts →
      ts.map DecayTuple.br
        = suffix.dropLast.map DecayMode.br
            ++ [1 - (allModes.dropLast.map DecayMode.br).sum] := by
  intro suffix
  induction suffix with
  | nil => intro pre ts _ hne _; exact absurd rfl hne
  | cons mode rest ih =>
    intro pre ts hall _ hrun
    simp only [buildDecayAux] at hrun
    cases htgt : (if containsName dd mode.daughter = true then some mode.daughter
                  else replace_missing fuel mode.daughter dd) with
    | none => rw [htgt] at hrun; simp at hrun
    | some target =>
      rw [htgt] at hrun
      cases hrec : buildDecayAux dd fuel allModes (pre.length + 1)
          ((pre.map DecayMode.br).sum + mode.br) rest with
      | none => rw [hrec] at hrun; simp at hrun
      | some ts1 =>
        rw [hrec] at hrun
        simp only [Option.some.injEq] at hrun
        subst hrun
        cases rest with
        | nil =>
          -- last mode of the record
          have hts1 : ts1 = [] := by
            have := hrec
            simp only [buildDecayAux, Option.some.injEq] at this
            exact this.symm
          subst hts1
          have hlen : pre.length = allModes.length - 1 := by
            simp [hall]
          have hdrop : allModes.dropLast = pre := by
            rw [hall]; exact List.dropLast_concat
          by_cases hsum : (pre.map DecayMode.br).sum + mode.br ≠ 1
          · simp only [hlen, hsum, and_self, if_pos, true_and, if_true]
            simp [hdrop]
            exact fun h => absurd h hsum
          · push_neg at hsum
            have : mode.br = 1 - (pre.map DecayMode.br).sum := by linarith
            simp only [hdrop]
            simp [this, hsum]
        | cons m2 rest2 =>
          have hlen : ¬ (pre.length = allModes.length - 1) := by
            rw [hall]
            simp only [List.length_append, List.length_cons]
            omega
          rw [if_neg (by intro hc; exact hlen hc.1)]
          have hall2 : allModes = (pre ++ [mode]) ++ (m2 :: rest2) := by
            rw [hall]; simp
          have hpre : (pre ++ [mode]).length = pre.length + 1 := by simp
          have hsum : ((pre ++ [mode]).map DecayMode.br).sum
              = (pre.map DecayMode.br).sum + mode.br := by
            simp [List.sum_append]
          have := ih (pre ++ [mode]) ts1 hall2 (by simp) (by rw [hpre, hsum]; exact hrec)
          simp only [List.map_cons, this]
          rfl

/-- C1: for every nuclide that is not stable and has a nonzero half-life,
when `from_endf` succeeds in building its decay tuples and the nuclide has
at least one decay mode, the stored branching ratio of the final mode is
one minus the sum of the source branching ratios of the preceding modes —
applied unconditionally, not only when the running sum differs from one —
and hence the stored branching ratios sum to exactly one. -/
theorem from_endf_decay_branching (dd : List (NucName × DecayData)) (fuel : Nat)
    (rec : DecayData) (ts : List DecayTuple)
    (hstable : rec.stable = false) (hhl : rec.half_life ≠ 0) (hmodes : rec.modes ≠ [])
    (hrun : fromEndfDecay dd fuel rec = some ts) :
    (ts.map DecayTuple.br).getLast?
        = some (1 - (rec.modes.dropLast.map DecayMode.br).sum)
    ∧ (ts.map DecayTuple.br).sum = 1 := by
  have hb : buildDecayTuples dd fuel rec.modes = some ts := by
    simpa [fromEndfDecay, hstable, hhl] using hrun
  have hmap := buildDecayAux_map_br dd fuel rec.modes rec.modes [] ts rfl hmodes hb
  constructor
  · rw [hmap]
    exact List.getLast?_concat _
  · rw [hmap]
    simp [List.sum_append]

/-- C1 witness fixture: a third concrete name. -/
def nmC : NucName := ⟨3, 6, 0⟩

/-- C1 witness fixture: decay data containing the two daughters. -/
def ddW : List (NucName × DecayData) := [(nmB, ⟨true, 0, [], []⟩), (nmC, ⟨true, 0, [], []⟩)]

/-- C1 witness fixture: an unstable record whose two source branching
ratios sum to 0.9999, as rounded source data does. -/
def recW : DecayData :=
  ⟨false, 5, [], [⟨["beta-"], nmB, 7 / 10⟩, ⟨["alpha"], nmC, 2999 / 10000⟩]⟩

/-- C1 witness fixture: the decay tuples that the build produces, with the
final ratio corrected from 0.2999 to 0.3. -/
def tsW : List DecayTuple := [⟨"beta-", some nmB, 7 / 10⟩, ⟨"alpha", some nmC, 3 / 10⟩]

/-- C1 witness: the theorem applied to the concrete record above. -/
theorem from_endf_decay_branching_witness :
    (tsW.map DecayTuple.br).getLast?
        = some (1 - (recW.modes.dropLast.map DecayMode.br).sum)
    ∧ (tsW.map DecayTuple.br).sum = 1 :=
  from_endf_decay_branching ddW 0 recW tsW rfl
    (by norm_num [recW]) (by simp [recW])
    (by norm_num [fromEndfDecay, recW, buildDecayTuples, buildDecayAux, containsName,
          ddW, tsW, nmB, nmC, joinModes]
        exact ⟨by decide, by decide⟩)

/-- The name of the free neutron, Z 0 and A 1. -/
def neutronName : NucName := ⟨0, 1, 0⟩

/-- A decay-data set that contains only helium-4, in particular not the
proton. -/
def ddHe : List (NucName × DecayData) := [(He4, ⟨true, 0, [], []⟩)]

/-- C2 counterexample: on the free-neutron input and a decay-data set
without the proton, `replace_missing` returns H1, which is not a key of
the given decay-data set — so the returned name is not always present. -/
theorem replace_missing_neutron_not_member :
    replace_missing 10 neutronName ddHe = some H1
    ∧ containsName ddHe H1 = false := by
  constructor
  · norm_num [replace_missing, neutronName, validZ, H1]
  · norm_num [containsName, ddHe, He4, H1]

/-- Any name the search loop returns is a key of the decay-data set. -/
theorem replaceLoop_mem (dd : List (NucName × DecayData)) (bm : Bool) :
    ∀ (fuel : Nat) (z a : Int) (pr r : NucName),
      replaceLoop dd bm fuel z a pr = some r → containsName dd r = true := by
  intro fuel
  induction fuel with
  | zero => intro z a pr r h; simp [replaceLoop] at h
  | succ f ih =>
    intro z a pr r h
    rw [replaceLoop] at h
    by_cases hc : containsName dd pr = true
    · rw [if_pos hc] at h
      injection h with h
      subst h
      exact hc
    · rw [if_neg hc] at h
      simp only at h
      by_cases hv : validZ (stepZA bm z a).1 = true
      · rw [if_pos hv] at h
        exact ih _ _ _ _ h
      · rw [if_neg hv] at h
        simp at h

/-- The search loop result does not depend on the fuel when it returns. -/
theorem replaceLoop_det (dd : List (NucName × DecayData)) (bm : Bool) :
    ∀ (f1 : Nat) (z a : Int) (pr r1 r2 : NucName) (f2 : Nat),
      replaceLoop dd bm f1 z a pr = some r1 →
      replaceLoop dd bm f2 z a pr = some r2 → r1 = r2 := by
  intro f1
  induction f1 with
  | zero => intro z a pr r1 r2 f2 h1; simp [replaceLoop] at h1
  | succ f ih =>
    intro z a pr r1 r2 f2 h1 h2
    cases f2 with
    | zero => simp [replaceLoop] at h2
    | succ g =>
      rw [replaceLoop] at h1 h2
      by_cases hc : containsName dd pr = true
      · rw [if_pos hc] at h1 h2
        injection h1 with h1
        injection h2 with h2
        rw [← h1, ← h2]
      · rw [if_neg hc] at h1 h2
        simp only at h1 h2
        by_cases hv : validZ (stepZA bm z a).1 = true
        · rw [if_pos hv] at h1 h2
          exact ih _ _ _ _ _ _ h1 h2
        · rw [if_neg hv] at h1
          simp at h1

/-- C2 (amended): `replace_missing` is deterministic — its result does not
depend on how long the search is allowed to run — the free neutron is
always substituted by the proton H1 irrespective of the decay-data set,
and for every input other than the free neutron a returned name is a key
of the given decay-data set; for the neutron the returned H1 is a key only
when the proton itself is present. -/
theorem replace_missing_props (dd : List (NucName × DecayData)) (p : NucName)
    (f1 f2 : Nat) (r1 r2 : NucName)
    (h1 : replace_missing f1 p dd = some r1)
    (h2 : replace_missing f2 p dd = some r2) :
    r1 = r2 ∧ (p.Z = 0 ∧ p.A = 1 → r1 = H1)
      ∧ (¬ (p.Z = 0 ∧ p.A = 1) → containsName dd r1 = true) := by
  rw [replace_missing] at h1 h2
  by_cases hz : validZ p.Z = true
  · rw [if_neg (by simp [hz])] at h1 h2
    by_cases hn : p.Z = 0 ∧ p.A = 1
    · rw [if_pos hn] at h1 h2
      injection h1 with h1
      injection h2 with h2
      refine ⟨by rw [← h1, ← h2], fun _ => by rw [← h1]; rfl, fun hcon => absurd hn hcon⟩
    · rw [if_neg hn] at h1 h2
      simp only at h1 h2
      cases hm : massLongestLived p.Z dd 0 none with
      | none => rw [hm] at h1; simp at h1
      | some mass =>
        rw [hm] at h1 h2
        exact ⟨replaceLoop_det dd _ f1 _ _ _ r1 r2 f2 h1 h2,
          fun hcon => absurd hcon hn,
          fun _ => replaceLoop_mem dd _ f1 _ _ _ r1 h1⟩
  · rw [if_pos (by simp [hz])] at h1
    simp at h1

/-- A decay-data set containing the proton. -/
def ddH1 : List (NucName × DecayData) := [(H1, ⟨true, 0, [], []⟩)]

/-- C2 witness: the amended theorem applied to the free neutron and a
decay-data set that does contain the proton. -/
theorem replace_missing_props_witness :
    H1 = H1 ∧ (neutronName.Z = 0 ∧ neutronName.A = 1 → H1 = H1)
      ∧ (¬ (neutronName.Z = 0 ∧ neutronName.A = 1) → containsName ddH1 H1 = true) :=
  replace_missing_props ddH1 neutronName 3 5 H1 H1
    (by norm_num [replace_missing, neutronName, validZ, H1])
    (by norm_num [replace_missing, neutronName, validZ, H1])

/-- The distinct reaction-type labels of a transition list, relative to the
set of labels already seen: exactly the labels whose loss the reaction loop
of `form_matrix` subtracts. -/
def freshLabels (seen : List String) : List ReactionTuple → List String
  | [] => []
  | rx :: rest =>
    if rx.type_ ∈ seen then freshLabels seen rest
    else rx.type_ :: freshLabels (rx.type_ :: seen) rest

/-- Entries of column `i` after the fission-product loop: each row `k`
gains the sum of yield fraction times fission rate over the table entries
that resolve to row `k`. -/
theorem yieldGains_entry (dict : List (NucName × Nat)) (i : Nat) (pr : ℚ) :
    ∀ (tbl : List (NucName × ℚ)) (m m2 : Mat),
      yieldGains dict i pr tbl m = some m2 →
      ∀ k : Nat, m2 (k, i) = m (k, i)
        + (tbl.map (fun py =>
            if alookup dict py.1 = some k then py.2 * pr else 0)).sum := by
  intro tbl
  induction tbl with
  | nil =>
    intro m m2 h k
    simp only [yieldGains, Option.some.injEq] at h
    subst h
    simp
  | cons py rest ih =>
    intro m m2 h k
    obtain ⟨p, y⟩ := py
    simp only [yieldGains] at h
    simp only [List.map_cons, List.sum_cons]
    by_cases hy : y * pr ≠ 0
    · rw [if_pos hy] at h
      cases hl : alookup dict p with
      | none => rw [hl] at h; simp at h
      | some k1 =>
        rw [hl] at h
        have hrec := ih _ _ h k
        rw [hrec, madd_apply]
        by_cases hk : k1 = k
        · subst hk
          rw [if_pos rfl, if_pos rfl]
          ring
        · rw [if_neg (show ((k : Nat), i) ≠ (k1, i) from
                fun hc => hk ((Prod.ext_iff.1 hc).1.symm)),
              if_neg (fun hc => hk (Option.some.inj hc))]
          ring
    · rw [if_neg hy] at h
      push_neg at hy
      have hrec := ih _ _ h k
      rw [hrec]
      have hz : (if alookup dict p = some k then y * pr else 0) = 0 := by
        split
        · exact hy
        · rfl
      rw [hz]
      ring

/-- An empty minimum-energy entry means an empty yield table. -/
theorem minEnergyEntry_eq_none (l : List (ℚ × List (NucName × ℚ))) :
    minEnergyEntry l = none ↔ l = [] := by
  cases l with
  | nil => simp [minEnergyEntry]
  | cons e rest =>
    simp only [minEnergyEntry]
    constructor
    · intro h
      cases hm : minEnergyEntry rest with
      | none => rw [hm] at h; simp at h
      | some e1 => rw [hm] at h; by_cases hle : e.1 ≤ e1.1 <;> simp [hle] at h
    · intro h
      simp at h

/-- The selected yield-table entry carries the least energy present. -/
theorem minEnergyEntry_le (l : List (ℚ × List (NucName × ℚ)))
    (E : ℚ) (tbl : List (NucName × ℚ)) (h : minEnergyEntry l = some (E, tbl)) :
    ∀ e ∈ l, E ≤ e.1 := by
  induction l generalizing E tbl with
  | nil => simp [minEnergyEntry] at h
  | cons e0 rest ih =>
    simp only [minEnergyEntry] at h
    cases hm : minEnergyEntry rest with
    | none =>
      rw [hm] at h
      have hrest : rest = [] := (minEnergyEntry_eq_none rest).1 hm
      simp only [Option.some.injEq] at h
      intro e he
      subst hrest
      simp only [List.mem_singleton] at he
      subst he
      rw [h]
    | some e1 =>
      rw [hm] at h
      by_cases hle : e0.1 ≤ e1.1
      · simp only [if_pos hle, Option.some.injEq] at h
        intro e he
        rcases List.mem_cons.1 he with he0 | herest
        · subst he0
          rw [h]
        · have hE : E = e0.1 := by rw [h]
          calc E = e0.1 := hE
            _ ≤ e1.1 := hle
            _ ≤ e.1 := ih e1.1 e1.2 (by rw [hm]) e herest
      · simp only [if_neg hle, Option.some.injEq] at h
        intro e he
        have hE : E = e1.1 := by rw [h]
        rcases List.mem_cons.1 he with he0 | herest
        · subst he0
          rw [hE]
          exact le_of_not_le hle
        · rw [hE]
          exact ih e1.1 e1.2 (by rw [hm]) e herest

/-- A gain step never changes the diagonal entry when no transition of the
nuclide resolves to its own row and no fission product of the selected
yield table does. -/
theorem rxGain_diag (dict : List (NucName × Nat)) (i : Nat) (nuc : Nuclide)
    (ty : String) (tgt : RxTarget) (pr b : ℚ) (m1 mX : Mat)
    (h : rxGain dict i nuc ty tgt pr b m1 = some mX)
    (hgain : ∀ t, tgt = RxTarget.name t → alookup dict t ≠ some i)
    (hfis : ∀ E tbl, minEnergyEntry nuc.yield_data = some (E, tbl) →
      ∀ p y, (p, y) ∈ tbl → alookup dict p ≠ some i) :
    mX (i, i) = m1 (i, i) := by
  have hfisCase : ∀ m1X : Mat,
      (match minEnergyEntry nuc.yield_data with
       | none => none
       | some ed => yieldGains dict i pr ed.2 m1X) = some mX →
      mX (i, i) = m1X (i, i) := by
    intro m1X hyg
    cases hmin : minEnergyEntry nuc.yield_data with
    | none => rw [hmin] at hyg; simp at hyg
    | some ed =>
      rw [hmin] at hyg
      have hdiag := yieldGains_entry dict i pr ed.2 m1X mX hyg i
      have hzero : (ed.2.map (fun py =>
          if alookup dict py.1 = some i then py.2 * pr else 0)).sum = 0 := by
        apply List.sum_eq_zero
        intro x hx
        simp only [List.mem_map] at hx
        obtain ⟨⟨p, y⟩, hpy, hxeq⟩ := hx
        rw [← hxeq, if_neg (hfis ed.1 ed.2 (by rw [hmin]) p y hpy)]
      rw [hdiag, hzero, add_zero]
  cases tgt with
  | nothing =>
    simp only [rxGain, Option.some.injEq] at h
    rw [← h]
  | name t =>
    simp only [rxGain] at h
    by_cases hf : ty ≠ "fission"
    · rw [if_pos hf] at h
      by_cases hpr : pr ≠ 0
      · rw [if_pos hpr] at h
        cases hl : alookup dict t with
        | none => rw [hl] at h; simp at h
        | some k =>
          rw [hl] at h
          injection h with h
          have hk : k ≠ i := fun hc => hgain t rfl (by rw [hl, hc])
          rw [← h, madd_ne _ _ _ _ _ (by intro hc; exact hk (by cases hc; rfl))]
      · rw [if_neg hpr] at h
        injection h with h
        rw [← h]
    · rw [if_neg hf] at h
      exact hfisCase m1 h
  | fissionSentinel =>
    simp only [rxGain] at h
    by_cases hf : ty ≠ "fission"
    · rw [if_pos hf] at h
      by_cases hpr : pr ≠ 0
      · rw [if_pos hpr] at h
        simp at h
      · rw [if_neg hpr] at h
        injection h with h
        rw [← h]
    · rw [if_neg hf] at h
      exact hfisCase m1 h

/-- Diagonal accounting of the reaction loop: provided no gain lands on
the diagonal (no transition of the nuclide resolves to its own row and no
fission product of the selected yield table does), the loop subtracts from
the diagonal exactly the sum of the rates of the distinct not-yet-seen
reaction-type labels, one subtraction per label. -/
theorem processRx_diag (dict : List (NucName × Nat)) (rates : RateTable) (i : Nat)
    (nuc : Nuclide) :
    ∀ (rxs : List ReactionTuple) (seen : List String) (m m2 : Mat),
      processRx dict rates i nuc rxs seen m = some m2 →
      (∀ rx ∈ rxs, ∀ t, rx.target = RxTarget.name t → alookup dict t ≠ some i) →
      (∀ E tbl, minEnergyEntry nuc.yield_data = some (E, tbl) →
        ∀ p y, (p, y) ∈ tbl → alookup dict p ≠ some i) →
      m2 (i, i) = m (i, i)
        - ((freshLabels seen rxs).map (rates.rate nuc.name)).sum := by
  intro rxs
  induction rxs with
  | nil =>
    intro seen m m2 h _ _
    simp only [processRx, Option.some.injEq] at h
    subst h
    simp [freshLabels]
  | cons rx rest ih =>
    intro seen m m2 h hgain hfis
    have hgain1 : ∀ rx1 ∈ rest, ∀ t, rx1.target = RxTarget.name t →
        alookup dict t ≠ some i :=
      fun rx1 hrx => hgain rx1 (List.mem_cons_of_mem _ hrx)
    have hgainHead : ∀ t, rx.target = RxTarget.name t → alookup dict t ≠ some i :=
      fun t ht => hgain rx (List.mem_cons_self _ _) t ht
    simp only [processRx] at h
    by_cases hin : rx.type_ ∈ rates.index_rx
    · rw [if_pos hin] at h
      by_cases hseen : rx.type_ ∈ seen
      · simp only [if_pos hseen] at h
        cases hg : rxGain dict i nuc rx.type_ rx.target (rates.rate nuc.name rx.type_)
            rx.br m with
        | none => rw [hg] at h; simp at h
        | some mX =>
          rw [hg] at h
          have hdiag := rxGain_diag dict i nuc _ _ _ _ _ _ hg hgainHead hfis
          have hrec := ih seen mX m2 h hgain1 hfis
          rw [hrec, hdiag]
          simp [freshLabels, hseen]
      · simp only [if_neg hseen] at h
        have hfl : freshLabels seen (rx :: rest)
            = rx.type_ :: freshLabels (rx.type_ :: seen) rest := by
          simp [freshLabels, hseen]
        by_cases hpr : rates.rate nuc.name rx.type_ ≠ 0
        · rw [if_pos hpr] at h
          cases hg : rxGain dict i nuc rx.type_ rx.target (rates.rate nuc.name rx.type_)
              rx.br (madd m i i (-rates.rate nuc.name rx.type_)) with
          | none => rw [hg] at h; simp at h
          | some mX =>
            rw [hg] at h
            have hdiag := rxGain_diag dict i nuc _ _ _ _ _ _ hg hgainHead hfis
            have hrec := ih _ mX m2 h hgain1 hfis
            rw [hrec, hdiag, madd_self, hfl]
            simp only [List.map_cons, List.sum_cons]
            ring_nf
        · rw [if_neg hpr] at h
          push_neg at hpr
          cases hg : rxGain dict i nuc rx.type_ rx.target (rates.rate nuc.name rx.type_)
              rx.br m with
          | none => rw [hg] at h; simp at h
          | some mX =>
            rw [hg] at h
            have hdiag := rxGain_diag dict i nuc _ _ _ _ _ _ hg hgainHead hfis
            have hrec := ih _ mX m2 h hgain1 hfis
            rw [hrec, hdiag, hfl]
            simp only [List.map_cons, List.sum_cons, hpr]
            ring_nf
    · rw [if_neg hin] at h
      simp at h

/-- C4: in `form_matrix`, for a nuclide present in the rate table (here one
without decay modes, isolating the reaction terms; the reaction loop runs
with a fresh seen-set), the diagonal entry decreases by the rate of every
distinct reaction-type label appearing among the nuclide transitions
exactly once, even when several transitions share a label — provided no
gain resolves to the nuclide row itself. -/
theorem form_matrix_loss_once (c : Chain) (rates : RateTable) (i : Nat)
    (nuc : Nuclide) (m m2 : Mat)
    (hmem : nuc.name ∈ rates.index_nuc)
    (hnodecay : nuc.decay_modes = [])
    (hrun : processNuclide c.nuclide_dict rates i nuc m = some m2)
    (hgain : ∀ rx ∈ nuc.reactions, ∀ t, rx.target = RxTarget.name t →
      alookup c.nuclide_dict t ≠ some i)
    (hfis : ∀ E tbl, minEnergyEntry nuc.yield_data = some (E, tbl) →
      ∀ p y, (p, y) ∈ tbl → alookup c.nuclide_dict p ≠ some i) :
    m2 (i, i) = m (i, i)
      - ((freshLabels [] nuc.reactions).map (rates.rate nuc.name)).sum := by
  have hrx : processRx c.nuclide_dict rates i nuc nuc.reactions [] m = some m2 := by
    simp only [processNuclide, processDecay, hnodecay, List.length_nil, ne_eq,
      not_true_eq_false, if_neg, if_pos hmem] at hrun
    simpa using hrun
  exact processRx_diag c.nuclide_dict rates i nuc nuc.reactions [] m m2 hrx hgain hfis

/-- The fission arm of the gain step, exposed: for the fission label and a
target other than the total-loss sentinel, the gain is the yield table at
the least available energy. -/
theorem rxGain_fission (dict : List (NucName × Nat)) (i : Nat) (nuc : Nuclide)
    (tgt : RxTarget) (pr b : ℚ) (m1 : Mat) (htgt : tgt ≠ RxTarget.nothing)
    (E : ℚ) (tbl : List (NucName × ℚ))
    (hmin : minEnergyEntry nuc.yield_data = some (E, tbl)) :
    rxGain dict i nuc "fission" tgt pr b m1 = yieldGains dict i pr tbl m1 := by
  cases tgt with
  | nothing => exact absurd rfl htgt
  | name t =>
    simp only [rxGain]
    rw [if_neg (not_not_intro rfl), hmin]
  | fissionSentinel =>
    simp only [rxGain]
    rw [if_neg (not_not_intro rfl), hmin]

/-- C9: for a fissioning nuclide (here one whose transitions are a single
fission transition and which has no decay modes) present in the rate table,
`form_matrix` takes the yield table of the least incident energy present in
the yield data — regardless of other energies — and adds yield fraction
times fission rate to each (product row, parent column) entry. -/
theorem form_matrix_fission_lowest_energy (c : Chain) (rates : RateTable) (i : Nat)
    (nuc : Nuclide) (m m2 : Mat) (tgt : RxTarget) (q b : ℚ) (E : ℚ)
    (tbl : List (NucName × ℚ))
    (hmem : nuc.name ∈ rates.index_nuc)
    (hnodecay : nuc.decay_modes = [])
    (hrx : nuc.reactions = [⟨"fission", tgt, q, b⟩])
    (htgt : tgt ≠ RxTarget.nothing)
    (hmin : minEnergyEntry nuc.yield_data = some (E, tbl))
    (hrun : processNuclide c.nuclide_dict rates i nuc m = some m2) :
    (∀ e ∈ nuc.yield_data, E ≤ e.1)
    ∧ ∀ k : Nat, k ≠ i →
        m2 (k, i) = m (k, i)
          + (tbl.map (fun py =>
              if alookup c.nuclide_dict py.1 = some k
              then py.2 * rates.rate nuc.name "fission" else 0)).sum := by
  refine ⟨minEnergyEntry_le nuc.yield_data E tbl hmin, ?_⟩
  have hrx1 : processRx c.nuclide_dict rates i nuc nuc.reactions [] m = some m2 := by
    simp only [processNuclide, processDecay, hnodecay, List.length_nil, ne_eq,
      not_true_eq_false, if_neg, if_pos hmem] at hrun
    simpa using hrun
  rw [hrx] at hrx1
  simp only [processRx] at hrx1
  by_cases hin : "fission" ∈ rates.index_rx
  · rw [if_pos hin] at hrx1
    rw [if_neg (List.not_mem_nil "fission")] at hrx1
    set m1 : Mat := if rates.rate nuc.name "fission" ≠ 0
        then madd m i i (-rates.rate nuc.name "fission") else m with hm1def
    have hm1 : ∀ k : Nat, k ≠ i → m1 (k, i) = m (k, i) := by
      intro k hk
      rw [hm1def]
      split
      · exact madd_ne _ _ _ _ _ (fun hc => hk ((Prod.ext_iff.1 hc).1))
      · rfl
    rw [rxGain_fission c.nuclide_dict i nuc tgt _ b m1 htgt E tbl hmin] at hrx1
    cases hyg : yieldGains c.nuclide_dict i (rates.rate nuc.name "fission") tbl m1 with
    | none => rw [hyg] at hrx1; simp at hrx1
    | some mX =>
      rw [hyg] at hrx1
      simp only [processRx, Option.some.injEq] at hrx1
      subst hrx1
      intro k hk
      rw [yieldGains_entry c.nuclide_dict i _ tbl m1 mX hyg k, hm1 k hk]
  · rw [if_neg hin] at hrx1
    simp at hrx1

/-- Fixture: ground-state parent name in the style of Am241. -/
def nmP : NucName := ⟨95, 241, 0⟩

/-- Fixture: ground-state capture daughter in the style of Am242. -/
def nmG : NucName := ⟨95, 242, 0⟩

/-- Fixture: metastable capture daughter in the style of Am242_m1. -/
def nmM : NucName := ⟨95, 242, 1⟩

/-- Fixture: plain daughter nuclide carrying no transitions. -/
def nucGW : Nuclide := ⟨nmG, none, 0, [], [], [], []⟩

/-- Fixture: plain metastable daughter nuclide carrying no transitions. -/
def nucMW : Nuclide := ⟨nmM, none, 0, [], [], [], []⟩

/-- Fixture: parent with two capture branches sharing the (n,gamma) label. -/
def nucPW : Nuclide :=
  ⟨nmP, none, 0, [],
    [⟨"(n,gamma)", RxTarget.name nmG, 0, 91 / 100⟩,
     ⟨"(n,gamma)", RxTarget.name nmM, 0, 9 / 100⟩], [], []⟩

/-- Fixture: the three-nuclide chain around `nucPW`. -/
def chainPW : Chain :=
  ⟨[nucPW, nucGW, nucMW], ["(n,gamma)"], [(nmP, 0), (nmG, 1), (nmM, 2)]⟩

/-- Fixture: a rate table with a single capture column, rate 5. -/
def ratesGamma : RateTable := ⟨[nmP], ["(n,gamma)"], fun _ _ => 5⟩

/-- C4 witness: with two competing (n,gamma) branches at rate 5, the
diagonal loses 5 once, not twice. -/
theorem form_matrix_loss_once_witness :
    (processNuclide chainPW.nuclide_dict ratesGamma 0 nucPW mzero).map
        (fun mm => mm (0, 0))
      = some (mzero (0, 0)
          - ((freshLabels [] nucPW.reactions).map (ratesGamma.rate nucPW.name)).sum) := by
  rcases hrun : processNuclide chainPW.nuclide_dict ratesGamma 0 nucPW mzero with _ | m2
  · exfalso
    have hne : ("(n,gamma)" : String) = "fission" ↔ False := by
      simp only [iff_false]
      decide
    norm_num [processNuclide, processDecay, processRx, rxGain, chainPW, ratesGamma,
      nucPW, nucGW, nucMW, nmP, nmG, nmM, alookup, madd, mzero, hne] at hrun
    exact Option.some_ne_none _ hrun
  · have hmain := form_matrix_loss_once chainPW ratesGamma 0 nucPW mzero m2
      (by norm_num [ratesGamma, nucPW]) rfl hrun
      (by
        intro rx hrx t ht
        simp only [nucPW, List.mem_cons, List.mem_singleton,
          List.not_mem_nil, or_false] at hrx
        rcases hrx with h | h <;> subst h <;>
          simp only [RxTarget.name.injEq] at ht <;> subst ht <;>
          simp [chainPW, alookup, nmP, nmG, nmM])
      (by
        intro E tbl h
        simp [nucPW, minEnergyEntry] at h)
    simp only [Option.map_some']
    rw [hmain]

/-- Fixture: a rate table with a single fission column, rate 8. -/
def ratesFis : RateTable := ⟨[nmP], ["fission"], fun _ _ => 8⟩

/-- Fixture: a fissioning parent whose yield data carries tables at the
energies 2 eV and 0 eV, so the 0 eV table must be the one used. -/
def nucFW : Nuclide :=
  ⟨nmP, none, 0, [], [⟨"fission", RxTarget.fissionSentinel, 1, 1⟩], [],
    [(2, [(nmG, 1 / 2)]), (0, [(nmM, 1 / 4)])]⟩

/-- C9 witness: the 0 eV table is selected over the 2 eV one and the
product row of the metastable daughter gains its yield times the rate. -/
theorem form_matrix_fission_lowest_energy_witness :
    (∀ e ∈ nucFW.yield_data, (0 : ℚ) ≤ e.1)
    ∧ (processNuclide chainPW.nuclide_dict ratesFis 0 nucFW mzero).map
        (fun mm => mm (2, 0))
      = some (mzero (2, 0) + (([(nmM, (1 : ℚ) / 4)]).map (fun py =>
          if alookup chainPW.nuclide_dict py.1 = some 2
          then py.2 * ratesFis.rate nucFW.name "fission" else 0)).sum) := by
  rcases hrun : processNuclide chainPW.nuclide_dict ratesFis 0 nucFW mzero with _ | m2
  · exfalso
    norm_num [processNuclide, processDecay, processRx, rxGain, minEnergyEntry,
      yieldGains, chainPW, ratesFis, nucFW, nucGW, nucMW, nucPW, nmP, nmG, nmM,
      alookup, madd, mzero] at hrun
    exact Option.some_ne_none _ hrun
  · have hmain := form_matrix_fission_lowest_energy chainPW ratesFis 0 nucFW mzero m2
      RxTarget.fissionSentinel 1 1 0 [(nmM, 1 / 4)]
      (by norm_num [ratesFis, nucFW]) rfl rfl (by simp)
      (by norm_num [minEnergyEntry, nucFW]) hrun
    refine ⟨hmain.1, ?_⟩
    simp only [Option.map_some']
    rw [hmain.2 2 (by norm_num)]

/-- The only exception the mutation loop can produce is the model image of
a bookkeeping read that cannot fail on a well-formed chain. -/
theorem sbrApply_err (reaction : String)
    (branch_ratios : List (NucName × List (NucName × ℚ)))
    (sums : List (NucName × ℚ)) (grounds : List (NucName × RxTarget)) :
    ∀ (rxm : List (NucName × List Nat)) (c0 : Chain) (e : SbrError),
      (sbrApply reaction branch_ratios sums grounds c0 rxm).1 = some e →
      e = SbrError.lookupFailure := by
  intro rxm
  induction rxm with
  | nil => intro c0 e h; simp [sbrApply] at h
  | cons pr rest ih =>
    intro c0 e h
    obtain ⟨pname, ixs⟩ := pr
    simp only [sbrApply] at h
    cases ha : applyParent c0 reaction branch_ratios sums grounds pname ixs with
    | none =>
      rw [ha] at h
      exact (Option.some.inj h).symm
    | some c1 =>
      rw [ha] at h
      exact ih c1 e h

/-- C5: in strict mode, whenever `set_branch_ratios` raises one of the
validation exceptions — unknown parent or target (KeyError), parent lacking
the reaction (AttributeError), out-of-tolerance sum (ValueError), as well
as the no-reaction IndexError and the sentinel TypeError — the chain is
returned exactly as it was: every such exception is raised during the
validation phase, before any mutation.  (`lookupFailure`, the model image
of reads that cannot fail on a well-formed chain, is the one excluded
error.) -/
theorem set_branch_ratios_atomic (c : Chain)
    (branch_ratios : List (NucName × List (NucName × ℚ))) (reaction : String)
    (tol : ℚ) (e : SbrError)
    (hrun : (c.set_branch_ratios branch_ratios reaction true tol).1 = some e)
    (hkind : e ≠ SbrError.lookupFailure) :
    (c.set_branch_ratios branch_ratios reaction true tol).2 = c := by
  cases hv : sbrValidate c reaction ((alookup secondaryParticles reaction).getD [])
      true |tol| branch_ratios ValState.init with
  | error e1 => simp only [Chain.set_branch_ratios, hv]
  | ok st =>
    simp only [Chain.set_branch_ratios, hv] at hrun ⊢
    by_cases hmap : st.rxn_ix_map = []
    · rw [if_pos hmap]
    · rw [if_neg hmap] at hrun ⊢
      exact absurd (sbrApply_err reaction branch_ratios st.sums st.grounds
        st.rxn_ix_map c e hrun) hkind

/-- C5 witness: a strict edit naming a parent absent from the chain raises
and returns the chain unchanged. -/
theorem set_branch_ratios_atomic_witness :
    (chainPW.set_branch_ratios [(nmA, [])] "(n,gamma)" true (1 / 100000)).2 = chainPW :=
  set_branch_ratios_atomic chainPW [(nmA, [])] "(n,gamma)" (1 / 100000)
    (SbrError.keyError nmA)
    (by norm_num [Chain.set_branch_ratios, sbrValidate, validateParent, ValState.init,
      secondaryParticles, alookup, chainPW, nmA, nmP, nmG, nmM, H1, H2, H3, He3, He4])
    (by simp)

/-- A transition list with no transition of the requested reaction scans to
an empty index list with the ground record unchanged. -/
theorem scanRx_no_match (reaction : String) (sec : List NucName) :
    ∀ (rxs : List ReactionTuple) (ix : Nat) (g : Option RxTarget),
      (∀ rx ∈ rxs, rx.type_ ≠ reaction) →
      scanRx reaction sec ix rxs g = some ([], g) := by
  intro rxs
  induction rxs with
  | nil => intro ix g _; rfl
  | cons rx rest ih =>
    intro ix g hno
    rw [scanRx, if_neg (fun hc => hno rx (List.mem_cons_self _ _) hc.1)]
    exact ih (ix + 1) g (fun rx1 h1 => hno rx1 (List.mem_cons_of_mem _ h1))

/-- A found nuclide is one of the chain nuclides. -/
theorem Chain.find?_mem (c : Chain) (n : NucName) (nuc : Nuclide)
    (h : c.find? n = some nuc) : nuc ∈ c.nuclides := by
  rw [Chain.find?] at h
  cases ha : alookup c.nuclide_dict n with
  | none => rw [ha] at h; simp at h
  | some ix =>
    rw [ha] at h
    exact List.get?_mem h

/-- When no nuclide of the chain carries the requested reaction, one pass
of validation never extends the parent-to-indices map. -/
theorem validateParent_no_reaction (c : Chain) (reaction : String)
    (sec : List NucName) (strict : Bool) (tol : ℚ) (st st1 : ValState)
    (parent : NucName) (sub : List (NucName × ℚ))
    (hno : ∀ nuc ∈ c.nuclides, ∀ rx ∈ nuc.reactions, rx.type_ ≠ reaction)
    (h : validateParent c reaction sec strict tol st parent sub = Except.ok st1) :
    st1.rxn_ix_map = st.rxn_ix_map := by
  rw [validateParent] at h
  by_cases hp : (alookup c.nuclide_dict parent).isSome = false
  · simp only [if_pos hp] at h
    cases strict with
    | true => simp at h
    | false =>
      simp only [Bool.false_eq_true, if_false, Except.ok.injEq] at h
      rw [← h]
  · simp only [if_neg hp] at h
    cases hcp : checkProducts c sub with
    | some product =>
      simp only [hcp] at h
      cases strict with
      | true => simp at h
      | false =>
        simp only [Bool.false_eq_true, if_false, Except.ok.injEq] at h
        rw [← h]
    | none =>
      simp only [hcp] at h
      cases hf : Chain.find? c parent with
      | none => simp only [hf] at h; exact absurd h (by simp)
      | some parentNuc =>
        simp only [hf] at h
        simp only [scanRx_no_match reaction sec parentNuc.reactions 0 none
          (hno parentNuc (Chain.find?_mem c parent parentNuc hf))] at h
        simp only [if_true] at h
        cases strict with
        | true => simp at h
        | false =>
          simp only [Bool.false_eq_true, if_false, Except.ok.injEq] at h
          rw [← h]

/-- When no nuclide of the chain carries the requested reaction, the whole
validation loop never extends the parent-to-indices map. -/
theorem sbrValidate_no_reaction (c : Chain) (reaction : String)
    (sec : List NucName) (strict : Bool) (tol : ℚ)
    (hno : ∀ nuc ∈ c.nuclides, ∀ rx ∈ nuc.reactions, rx.type_ ≠ reaction) :
    ∀ (brs : List (NucName × List (NucName × ℚ))) (st st1 : ValState),
      sbrValidate c reaction sec strict tol brs st = Except.ok st1 →
      st1.rxn_ix_map = st.rxn_ix_map := by
  intro brs
  induction brs with
  | nil =>
    intro st st1 h
    simp only [sbrValidate] at h
    rw [Except.ok.inj h]
  | cons pr rest ih =>
    intro st st1 h
    obtain ⟨parent, sub⟩ := pr
    simp only [sbrValidate] at h
    cases hv : validateParent c reaction sec strict tol st parent sub with
    | error e => rw [hv] at h; simp at h
    | ok stMid =>
      rw [hv] at h
      rw [ih stMid st1 h]
      exact validateParent_no_reaction c reaction sec strict tol st stMid
        parent sub hno hv

/-- C8: editing a reaction-type label that no nuclide of the chain carries
always raises — in strict and in non-strict mode alike — and the chain is
returned untouched: the mutation phase is never reached. -/
theorem set_branch_ratios_unknown_reaction (c : Chain)
    (branch_ratios : List (NucName × List (NucName × ℚ))) (reaction : String)
    (strict : Bool) (tol : ℚ)
    (hno : ∀ nuc ∈ c.nuclides, ∀ rx ∈ nuc.reactions, rx.type_ ≠ reaction) :
    (c.set_branch_ratios branch_ratios reaction strict tol).1.isSome = true
    ∧ (c.set_branch_ratios branch_ratios reaction strict tol).2 = c := by
  cases hv : sbrValidate c reaction ((alookup secondaryParticles reaction).getD [])
      strict |tol| branch_ratios ValState.init with
  | error e1 =>
    simp only [Chain.set_branch_ratios, hv]
    exact ⟨rfl, trivial⟩
  | ok st =>
    have hmap : st.rxn_ix_map = [] :=
      sbrValidate_no_reaction c reaction _ strict |tol| hno branch_ratios
        ValState.init st hv
    simp only [Chain.set_branch_ratios, hv, hmap, if_true]
    exact ⟨rfl, trivial⟩

/-- C8 witness: the chain fixture carries only (n,gamma), so an edit of
(n,2n) raises and leaves the chain unchanged in strict mode. -/
theorem set_branch_ratios_unknown_reaction_witness :
    (chainPW.set_branch_ratios [(nmP, [(nmG, 1 / 2)])] "(n,2n)" true (1 / 100000)).1.isSome
        = true
    ∧ (chainPW.set_branch_ratios [(nmP, [(nmG, 1 / 2)])] "(n,2n)" true (1 / 100000)).2
        = chainPW :=
  set_branch_ratios_unknown_reaction chainPW [(nmP, [(nmG, 1 / 2)])] "(n,2n)" true
    (1 / 100000)
    (by
      intro nuc hn rx hrx
      simp only [chainPW, List.mem_cons, List.not_mem_nil, or_false] at hn
      rcases hn with h | h | h <;> subst h
      · simp only [nucPW, List.mem_cons, List.not_mem_nil, or_false] at hrx
        rcases hrx with h1 | h1 <;> subst h1 <;> decide
      · simp [nucGW] at hrx
      · simp [nucMW] at hrx)

/-- The capture reaction has no secondary particles in the table, so the
edits below run with an empty protected list. -/
theorem secondary_gamma : (alookup secondaryParticles "(n,gamma)").getD [] = [] := by
  simp [secondaryParticles, alookup]

/-- C6 counterexample: a supplied sum of exactly 1 + tolerance is rejected
with a ValueError in strict mode, although the claim asserts that any sum
at most 1 + tolerance passes the check. -/
theorem set_branch_ratios_boundary_sum_rejected :
    (chainPW.set_branch_ratios [(nmP, [(nmG, 1), (nmM, 1 / 100000)])] "(n,gamma)"
        true (1 / 100000)).1
      = some (SbrError.valueError nmP) := by
  rw [Chain.set_branch_ratios, secondary_gamma]
  have hne1 : ¬ (([0, 1] : List Nat) = []) := by decide
  have hne2 : ¬ (([0] : List Nat) = []) := by decide
  have habs : |(1 : ℚ) / 100000| = 1 / 100000 := abs_of_nonneg (by norm_num)
  norm_num [hne1, hne2, habs, sbrValidate, validateParent, ValState.init,
    checkProducts, scanRx, targetInList, targetHasM, groundMem, dinsert, alookup,
    Chain.find?, chainPW, nucPW, nucGW, nucMW, nmP, nmG, nmM,
    H1, H2, H3, He3, He4]

/-- C6 (amended): with the ground target among the supplied keys the sum
check passes exactly when 1 - tolerance < sum < 1 + tolerance, with strict
inequalities on both sides; without the ground target it passes exactly
when sum < 1 + tolerance.  In strict mode failing the check raises, so the
call succeeds precisely on the open tolerance region. -/
theorem set_branch_ratios_sum_check (g r tol : ℚ) (htol : 0 ≤ tol) :
    (((chainPW.set_branch_ratios [(nmP, [(nmG, g), (nmM, r)])] "(n,gamma)" true tol).1
        = none) ↔ (g + r < 1 + tol ∧ 1 - tol < g + r))
    ∧ (((chainPW.set_branch_ratios [(nmP, [(nmM, r)])] "(n,gamma)" true tol).1
        = none) ↔ r < 1 + tol) := by
  constructor
  · by_cases h1 : 1 + tol ≤ g + r
    · have hres : (chainPW.set_branch_ratios [(nmP, [(nmG, g), (nmM, r)])] "(n,gamma)"
          true tol).1 = some (SbrError.valueError nmP) := by
        rw [Chain.set_branch_ratios, secondary_gamma]
        have hne1 : ¬ (([0, 1] : List Nat) = []) := by decide
        have hne2 : ¬ (([0] : List Nat) = []) := by decide
        norm_num [hne1, hne2, sbrValidate, validateParent, ValState.init,
          checkProducts, scanRx, targetInList, targetHasM, groundMem, dinsert, alookup,
          Chain.find?, chainPW, nucPW, nucGW, nucMW, nmP, nmG, nmM,
          H1, H2, H3, He3, He4, abs_of_nonneg htol, h1]
      rw [hres]
      constructor
      · intro hc; exact absurd hc (by simp)
      · rintro ⟨ha, _⟩; exact absurd h1 (not_le.mpr ha)
    · by_cases h2 : g + r ≤ 1 - tol
      · have hres : (chainPW.set_branch_ratios [(nmP, [(nmG, g), (nmM, r)])] "(n,gamma)"
            true tol).1 = some (SbrError.valueError nmP) := by
          rw [Chain.set_branch_ratios, secondary_gamma]
          have hne1 : ¬ (([0, 1] : List Nat) = []) := by decide
          have hne2 : ¬ (([0] : List Nat) = []) := by decide
          norm_num [hne1, hne2, sbrValidate, validateParent, ValState.init,
            checkProducts, scanRx, targetInList, targetHasM, groundMem, dinsert, alookup,
            Chain.find?, chainPW, nucPW, nucGW, nucMW, nmP, nmG, nmM,
            H1, H2, H3, He3, He4, abs_of_nonneg htol, h1, h2]
        rw [hres]
        constructor
        · intro hc; exact absurd hc (by simp)
        · rintro ⟨_, hb⟩; exact absurd h2 (not_le.mpr hb)
      · have hres : (chainPW.set_branch_ratios [(nmP, [(nmG, g), (nmM, r)])] "(n,gamma)"
            true tol).1 = none := by
          rw [Chain.set_branch_ratios, secondary_gamma]
          have hne1 : ¬ (([0, 1] : List Nat) = []) := by decide
          have hne2 : ¬ (([0] : List Nat) = []) := by decide
          norm_num [hne1, hne2, sbrValidate, validateParent, ValState.init,
            sbrApply, applyParent, checkProducts, scanRx, targetInList, targetHasM,
            groundMem, dinsert, alookup, Chain.find?, Chain.updateNuclide, popAll, popAt,
            List.eraseIdx, List.set, chainPW, nucPW, nucGW, nucMW,
            nmP, nmG, nmM, H1, H2, H3, He3, He4, abs_of_nonneg htol, h1, h2]
        rw [hres]
        exact ⟨fun _ => ⟨not_le.mp h1, not_le.mp h2⟩, fun _ => rfl⟩
  · by_cases h1 : 1 + tol ≤ r
    · have hres : (chainPW.set_branch_ratios [(nmP, [(nmM, r)])] "(n,gamma)"
          true tol).1 = some (SbrError.valueError nmP) := by
        rw [Chain.set_branch_ratios, secondary_gamma]
        have hne1 : ¬ (([0, 1] : List Nat) = []) := by decide
        have hne2 : ¬ (([0] : List Nat) = []) := by decide
        norm_num [hne1, hne2, sbrValidate, validateParent, ValState.init,
          checkProducts, scanRx, targetInList, targetHasM, groundMem, dinsert, alookup,
          Chain.find?, chainPW, nucPW, nucGW, nucMW, nmP, nmG, nmM,
          H1, H2, H3, He3, He4, abs_of_nonneg htol, h1]
      rw [hres]
      constructor
      · intro hc; exact absurd hc (by simp)
      · intro ha; exact absurd h1 (not_le.mpr ha)
    · have hres : (chainPW.set_branch_ratios [(nmP, [(nmM, r)])] "(n,gamma)"
          true tol).1 = none := by
        rw [Chain.set_branch_ratios, secondary_gamma]
        have hne1 : ¬ (([0, 1] : List Nat) = []) := by decide
        have hne2 : ¬ (([0] : List Nat) = []) := by decide
        norm_num [hne1, hne2, sbrValidate, validateParent, ValState.init,
          sbrApply, applyParent, checkProducts, scanRx, targetInList, targetHasM,
          groundMem, dinsert, alookup, Chain.find?, Chain.updateNuclide, popAll, popAt,
          List.eraseIdx, List.set, chainPW, nucPW, nucGW, nucMW,
          nmP, nmG, nmM, H1, H2, H3, He3, He4, abs_of_nonneg htol, h1]
      rw [hres]
      exact ⟨fun _ => not_le.mp h1, fun _ => rfl⟩

/-- C6 witness: the amended characterization applied at sum 0.95 with the
ground target supplied and at 0.95 without it, tolerance 0.00001. -/
theorem set_branch_ratios_sum_check_witness :
    (((chainPW.set_branch_ratios [(nmP, [(nmG, 9 / 10), (nmM, 5 / 100)])] "(n,gamma)"
        true (1 / 100000)).1 = none)
      ↔ (9 / 10 + 5 / 100 < 1 + (1 / 100000 : ℚ) ∧ 1 - (1 / 100000 : ℚ) < 9 / 10 + 5 / 100))
    ∧ (((chainPW.set_branch_ratios [(nmP, [(nmM, (5 / 100 : ℚ))])] "(n,gamma)"
        true (1 / 100000)).1 = none) ↔ (5 / 100 : ℚ) < 1 + (1 / 100000 : ℚ)) :=
  set_branch_ratios_sum_check (9 / 10) (5 / 100) (1 / 100000) (by norm_num)

/-- Fixture: a non-canonical observed ground target (mass 243, not the
canonical capture daughter mass 242); it need not be in the chain. -/
def nmGx : NucName := ⟨95, 243, 0⟩

/-- Fixture: daughter of the unrelated (n,2n) transition. -/
def nmQ2n : NucName := ⟨95, 240, 0⟩

/-- Fixture: an unrelated (n,2n) transition that the capture edit must not
touch. -/
def rx2n : ReactionTuple := ⟨"(n,2n)", RxTarget.name nmQ2n, 11, 1⟩

/-- Fixture: parent with capture branches to an observed non-canonical
ground target and to a metastable target, plus the unrelated transition. -/
def nucP7 : Nuclide :=
  ⟨nmP, none, 0, [],
    [⟨"(n,gamma)", RxTarget.name nmGx, 7, 9 / 10⟩,
     ⟨"(n,gamma)", RxTarget.name nmM, 9, 1 / 10⟩,
     rx2n], [], []⟩

/-- Fixture: the chain around `nucP7`. -/
def chain7 : Chain :=
  ⟨[nucP7, nucGW, nucMW], ["(n,gamma)", "(n,2n)"], [(nmP, 0), (nmG, 1), (nmM, 2)]⟩

/-- C7: supplying only the metastable target with a ratio below tolerance
and different from one synthesizes a ground-state transition with the
complementary ratio 1 - r; its target is the ground-state name observed
among the parent's original capture transitions (here the non-canonical
mass-243 name, showing the observed name wins over the canonical (Z, A+1)
derivation), the Q value is carried from the first removed transition, and
unrelated transitions survive. -/
theorem set_branch_ratios_meta_complement (r : ℚ)
    (hr1 : r < 1 + 1 / 100000) (hr2 : r ≠ 1) :
    (chain7.set_branch_ratios [(nmP, [(nmM, r)])] "(n,gamma)" true (1 / 100000)).1 = none
    ∧ (chain7.set_branch_ratios [(nmP, [(nmM, r)])] "(n,gamma)" true
        (1 / 100000)).2.find? nmP
      = some { nucP7 with reactions :=
          [rx2n,
           ⟨"(n,gamma)", RxTarget.name nmM, 7, r⟩,
           ⟨"(n,gamma)", RxTarget.name nmGx, 7, 1 - r⟩] } := by
  rw [Chain.set_branch_ratios, secondary_gamma]
  have hne2 : ¬ (([0, 1] : List Nat) = []) := by decide
  have habs : |(1 : ℚ) / 100000| = 1 / 100000 := abs_of_nonneg (by norm_num)
  have hle : ¬ ((100001 : ℚ) / 100000 ≤ r) := not_le.mpr (by linarith)
  have hstr : ¬ (("(n,2n)" : String) = "(n,gamma)") := by decide
  constructor <;>
    norm_num [hne2, habs, hle, hstr, hr2, sbrValidate, validateParent, ValState.init,
      sbrApply, applyParent, checkProducts, scanRx, targetInList, targetHasM,
      groundMem, dinsert, alookup, Chain.find?, Chain.updateNuclide, popAll, popAt,
      List.eraseIdx, List.set, chain7, nucP7, rx2n, nucGW, nucMW,
      nmP, nmG, nmM, nmGx, nmQ2n]

/-- C7 witness: the spec example — a metastable branch of 0.3 is completed
by a synthesized ground branch of 0.7. -/
theorem set_branch_ratios_meta_complement_witness :
    (chain7.set_branch_ratios [(nmP, [(nmM, 3 / 10)])] "(n,gamma)" true
        (1 / 100000)).1 = none
    ∧ (chain7.set_branch_ratios [(nmP, [(nmM, 3 / 10)])] "(n,gamma)" true
        (1 / 100000)).2.find? nmP
      = some { nucP7 with reactions :=
          [rx2n,
           ⟨"(n,gamma)", RxTarget.name nmM, 7, 3 / 10⟩,
           ⟨"(n,gamma)", RxTarget.name nmGx, 7, 1 - 3 / 10⟩] } :=
  set_branch_ratios_meta_complement (3 / 10) (by norm_num) (by norm_num)

/-- Fixture: parent whose only capture transition targets the metastable
state, so no ground target is ever recorded for it. -/
def nucP10 : Nuclide :=
  ⟨nmP, none, 0, [], [⟨"(n,gamma)", RxTarget.name nmM, 5, 1⟩], [], []⟩

/-- Fixture: the chain around `nucP10`. -/
def chain10 : Chain :=
  ⟨[nucP10, nucGW, nucMW], ["(n,gamma)"], [(nmP, 0), (nmG, 1), (nmM, 2)]⟩

/-- C10 counterexample: with every capture target metastable but a supplied
sum of 1.2 at default tolerance, the claimed KeyError is not raised — the
sum check short-circuits before the ground lookup, the parent is only
warned about, and the call ends with an IndexError instead. -/
theorem set_branch_ratios_meta_high_sum_no_keyerror :
    chain10.set_branch_ratios [(nmP, [(nmM, 6 / 5)])] "(n,gamma)" false (1 / 100000)
      = (some SbrError.indexError, chain10) := by
  rw [Chain.set_branch_ratios, secondary_gamma]
  have hne2 : ¬ (([0] : List Nat) = []) := by decide
  have habs : |(1 : ℚ) / 100000| = 1 / 100000 := abs_of_nonneg (by norm_num)
  norm_num [hne2, habs, sbrValidate, validateParent, ValState.init, checkProducts,
    scanRx, targetInList, targetHasM, groundMem, dinsert, alookup, Chain.find?,
    chain10, nucP10, nucGW, nucMW, nmP, nmG, nmM]

/-- A supplied-target list whose keys all exist in the chain passes the
product scan. -/
theorem checkProducts_none (c : Chain) :
    ∀ (sub : List (NucName × ℚ)),
      (∀ p ∈ sub.map Prod.fst, (alookup c.nuclide_dict p).isSome = true) →
      checkProducts c sub = none := by
  intro sub
  induction sub with
  | nil => intro _; rfl
  | cons pv rest ih =>
    intro hall
    obtain ⟨p, v⟩ := pv
    rw [checkProducts, if_pos (hall p (by simp))]
    exact ih (fun p1 h1 => hall p1 (by
      simp only [List.map_cons, List.mem_cons]
      exact Or.inr h1))

/-- Scanning transitions whose matching targets are all metastable records
no ground target; the index list is empty exactly when nothing matched. -/
theorem scanRx_all_meta (reaction : String) (sec : List NucName) :
    ∀ (rxs : List ReactionTuple) (ix : Nat) (g : Option RxTarget),
      (∀ rx ∈ rxs, rx.type_ = reaction → targetInList rx.target sec = false →
        targetHasM rx.target = some true) →
      ∃ ixs, scanRx reaction sec ix rxs g = some (ixs, g)
        ∧ (ixs = [] ↔ ∀ rx ∈ rxs,
            ¬(rx.type_ = reaction ∧ targetInList rx.target sec = false)) := by
  intro rxs
  induction rxs with
  | nil =>
    intro ix g _
    exact ⟨[], rfl, by simp⟩
  | cons rx rest ih =>
    intro ix g hmeta
    by_cases hc : rx.type_ = reaction ∧ targetInList rx.target sec = false
    · obtain ⟨ixs, hrun, _⟩ := ih (ix + 1) g
        (fun rx1 h1 => hmeta rx1 (List.mem_cons_of_mem _ h1))
      have hm := hmeta rx (List.mem_cons_self _ _) hc.1 hc.2
      refine ⟨ix :: ixs, ?_, ?_⟩
      · rw [scanRx, if_pos hc, hm]
        simp only [if_true]
        rw [hrun]
      · simp only [List.cons_ne_nil, false_iff]
        intro hall
        exact hall rx (List.mem_cons_self _ _) hc
    · obtain ⟨ixs, hrun, hiff⟩ := ih (ix + 1) g
        (fun rx1 h1 => hmeta rx1 (List.mem_cons_of_mem _ h1))
      refine ⟨ixs, ?_, ?_⟩
      · rw [scanRx, if_neg hc]
        exact hrun
      · rw [hiff, List.forall_mem_cons]
        exact ⟨fun h => ⟨hc, h⟩, fun h => h.2⟩

/-- C10 (amended): in non-strict mode, when a listed parent exists, all its
listed targets exist, it carries at least one non-secondary transition of
the requested reaction, every such transition targets a metastable state,
and the supplied ratios sum to less than 1 + tolerance, the unguarded
ground lookup of the sum check raises a KeyError — instead of the warning
non-strict mode otherwise gives — and the chain is returned unchanged. -/
theorem set_branch_ratios_grounds_keyerror (c : Chain) (parent : NucName)
    (nuc : Nuclide) (sub : List (NucName × ℚ)) (reaction : String) (tol : ℚ)
    (hfind : c.find? parent = some nuc)
    (hprod : ∀ p ∈ sub.map Prod.fst, (alookup c.nuclide_dict p).isSome = true)
    (hsome : ∃ rx, rx ∈ nuc.reactions ∧ (rx.type_ = reaction ∧
      targetInList rx.target ((alookup secondaryParticles reaction).getD []) = false))
    (hmeta : ∀ rx ∈ nuc.reactions, rx.type_ = reaction →
      targetInList rx.target ((alookup secondaryParticles reaction).getD []) = false →
      targetHasM rx.target = some true)
    (hsum : (sub.map Prod.snd).sum < 1 + |tol|) :
    c.set_branch_ratios [(parent, sub)] reaction false tol
      = (some (SbrError.keyError parent), c) := by
  have hpar : (alookup c.nuclide_dict parent).isSome = true := by
    rw [Chain.find?] at hfind
    cases ha : alookup c.nuclide_dict parent with
    | none => rw [ha] at hfind; simp at hfind
    | some ix => rfl
  obtain ⟨ixs, hscan, hiff⟩ := scanRx_all_meta reaction
    ((alookup secondaryParticles reaction).getD []) nuc.reactions 0 none hmeta
  have hixs : ¬ (ixs = []) := by
    intro hnil
    obtain ⟨rx, hmem, hcond⟩ := hsome
    exact (hiff.1 hnil rx hmem) hcond
  rw [Chain.set_branch_ratios]
  simp only [sbrValidate, validateParent, ValState.init]
  rw [if_neg (by simp [hpar])]
  simp only [checkProducts_none c sub hprod, hfind, hscan]
  rw [if_neg hixs, if_neg (not_le.mpr hsum)]
  simp only [alookup]

/-- C10 witness: the amended theorem at a concrete chain whose parent has a
single metastable capture branch and a supplied sum of 0.3. -/
theorem set_branch_ratios_grounds_keyerror_witness :
    chain10.set_branch_ratios [(nmP, [(nmM, 3 / 10)])] "(n,gamma)" false (1 / 100000)
      = (some (SbrError.keyError nmP), chain10) :=
  set_branch_ratios_grounds_keyerror chain10 nmP nucP10 [(nmM, 3 / 10)] "(n,gamma)"
    (1 / 100000)
    (by norm_num [Chain.find?, alookup, chain10, nucP10, nucGW, nucMW, nmP, nmG, nmM])
    (by
      intro p hp
      simp only [List.map_cons, List.map_nil, List.mem_singleton] at hp
      subst hp
      norm_num [alookup, chain10, nmP, nmG, nmM])
    ⟨⟨"(n,gamma)", RxTarget.name nmM, 5, 1⟩, by simp [nucP10],
      rfl, by rw [secondary_gamma]; rfl⟩
    (by
      intro rx hrx h1 h2
      simp only [nucP10, List.mem_singleton] at hrx
      subst hrx
      simp [targetHasM, nmM])
    (by
      have habs : |(1 : ℚ) / 100000| = 1 / 100000 := abs_of_nonneg (by norm_num)
      rw [habs]
      norm_num)

end Deplete
